import Mathlib

/-
Shallow embedding of the configmap-collector core: the retention planner
(package planner, function Plan) and the in-use resolver (package k8s,
InUseResolver.Resolve with its helpers ExtractChecksum, isOwnedByRollout,
ListRolloutReplicaSets, FilterConfigMapsByChecksums).

Go integers and times are modelled over unbounded Int, with explicit
64-bit wraparound where the Go code can overflow (the Duration product
in Plan) and saturation where Go saturates (time.Time.Sub).
-/

namespace ConfigMapCollector

/-- Smallest Go int64 value (Duration lower bound). -/
def i64Min : ℤ := -(2 ^ 63)

/-- Largest Go int64 value (Duration upper bound). -/
def i64Max : ℤ := 2 ^ 63 - 1

/-- Two-complement 64-bit wraparound, modelling Go int64 arithmetic. -/
def wrap64 (x : ℤ) : ℤ := (x + 2 ^ 63) % 2 ^ 64 - 2 ^ 63

/-- Go time.Time.Sub: the nanosecond difference, saturated to the int64
Duration range (per the Go documentation of Sub). -/
def timeSub (a b : ℤ) : ℤ := max i64Min (min i64Max (a - b))

/-- The Plan expression time.Duration(keepDays) * 24 * time.Hour, in
nanoseconds, with Go int64 wraparound on the product. -/
def keepDuration (keepDays : ℤ) : ℤ := wrap64 (keepDays * 24 * 3600000000000)

/-- planner.ConfigMapCandidate: name, creation time, annotations. The Go
annotations field is map[string]string; it is embedded as an association
list (keys looked up left to right, as map semantics for distinct keys). -/
structure ConfigMapCandidate where
  name : String
  creationTimestamp : ℤ
  annotations : List (String × String)
deriving DecidableEq

/-- Go map indexing m[k] on a string map: the stored value when the key is
present, and the zero value "" otherwise. -/
def lookupAnnot (m : List (String × String)) (k : String) : String :=
  match m.find? (fun p => p.1 == k) with
  | some p => p.2
  | none => ""

/-- Go strings.Contains s pat: pat occurs as a contiguous substring of s. -/
def strContains (s pat : String) : Bool := decide (pat.data <:+: s.data)

/-- The comparator used by Plan via slices.SortFunc: a is ordered no later
than b when the creation time of b is at most the creation time of a
(creation time descending, newest first). -/
def newerEq (a b : ConfigMapCandidate) : Prop :=
  b.creationTimestamp ≤ a.creationTimestamp

instance : DecidableRel newerEq :=
  fun a b => inferInstanceAs (Decidable (b.creationTimestamp ≤ a.creationTimestamp))

instance : IsTotal ConfigMapCandidate newerEq :=
  ⟨fun a b => le_total b.creationTimestamp a.creationTimestamp⟩

instance : IsTrans ConfigMapCandidate newerEq :=
  ⟨fun _ _ _ h₁ h₂ => le_trans h₂ h₁⟩

/-- The sort performed at the top of Plan: candidates by creation time
descending. Go slices.SortFunc leaves the order of equal elements
unspecified; the embedding fixes a stable sort, which agrees with the Go
insertion sort actually run on small inputs. -/
def planSort (cms : List ConfigMapCandidate) : List ConfigMapCandidate :=
  List.insertionSort newerEq cms

/-- The names inserted into the notInKeepLast map of Plan: the names of the
candidates whose 0-based index in the sorted order is at least keepLast. -/
def notInKeepLast (sorted : List ConfigMapCandidate) (keepLast : ℤ) : List String :=
  (sorted.enum.filter (fun p => decide ((p.1 : ℤ) ≥ keepLast))).map (fun p => p.2.name)

/-- The body of the deletion loop of Plan: a candidate is appended to
toDelete exactly when none of the five continue branches fires. -/
def deletable (nikl : List String) (inUse : String → Bool) (keepDays : ℤ)
    (now : ℤ) (cm : ConfigMapCandidate) : Bool :=
  nikl.contains cm.name &&
  !inUse cm.name &&
  !(lookupAnnot cm.annotations "gc.k8s.io/protect" == "true") &&
  !strContains (lookupAnnot cm.annotations "argocd.argoproj.io/sync-options") "PruneLast=true" &&
  !decide (timeSub now cm.creationTimestamp < keepDuration keepDays)

/-- Plan after its initial sort: build notInKeepLast from the sorted list,
then walk the sorted list collecting the names of deletable candidates. -/
def planFrom (sorted : List ConfigMapCandidate) (inUse : String → Bool)
    (keepLast keepDays : ℤ) (now : ℤ) : List String :=
  (sorted.filter (deletable (notInKeepLast sorted keepLast) inUse keepDays now)).map
    (fun cm => cm.name)

/-- planner.Plan: sort the candidates newest first, exempt the first
keepLast ranks by name, then delete what is not in use, not protected and
old enough. inUse is the Go map[string]bool read through indexing, so a
missing key reads as false. -/
def Plan (cms : List ConfigMapCandidate) (inUse : String → Bool)
    (keepLast keepDays : ℤ) (now : ℤ) : List String :=
  planFrom (planSort cms) inUse keepLast keepDays now

/-- k8s OwnerReference, restricted to the fields the code reads. -/
structure OwnerReference where
  kind : String
  name : String
deriving DecidableEq

/-- appsv1.ReplicaSet, restricted to the fields the code reads: the owner
references and the pod template annotations (an association list standing
for map[string]string, with key presence observable). -/
structure ReplicaSet where
  name : String
  ownerReferences : List OwnerReference
  templateAnnots : List (String × String)
deriving DecidableEq

/-- Go two-valued map lookup m[k]: some value when present, none otherwise. -/
def lookupAnnot2 (m : List (String × String)) (k : String) : Option String :=
  (m.find? (fun p => p.1 == k)).map (fun p => p.2)

/-- The constant k8s.AnnotationChecksumConfig. -/
def AnnotationChecksumConfig : String := "checksum/config"

/-- k8s.ExtractChecksum: the checksum/config value from the pod template,
returned as (value, ok && value != ""). -/
def ExtractChecksum (rs : ReplicaSet) : String × Bool :=
  match lookupAnnot2 rs.templateAnnots AnnotationChecksumConfig with
  | some c => (c, c != "")
  | none => ("", false)

/-- k8s.isOwnedByRollout: some owner reference has kind "Rollout" and the
given name. -/
def isOwnedByRollout (rs : ReplicaSet) (rolloutName : String) : Bool :=
  rs.ownerReferences.any (fun ref => ref.kind == "Rollout" && ref.name == rolloutName)

/-- k8s.KubeReplicaSetClient.ListRolloutReplicaSets on an already fetched
namespace listing: keep the records owned by the named Rollout. -/
def ListRolloutReplicaSets (rss : List ReplicaSet) (rolloutName : String) : List ReplicaSet :=
  rss.filter (fun rs => isOwnedByRollout rs rolloutName)

/-- Modelled from the spec: ListNamespaceRolloutReplicaSets is called by
InUseResolver.Resolve and exercised by the unit tests, but its definition
is not among the sources here. Per the spec, a record is Rollout-owned when
at least one owner reference has kind exactly "Rollout" (any name), and the
listing returns every such record of the namespace. -/
def ListNamespaceRolloutReplicaSets (rss : List ReplicaSet) : List ReplicaSet :=
  rss.filter (fun rs => rs.ownerReferences.any (fun ref => ref.kind == "Rollout"))

/-- k8s.InUseResolver.Resolve on an already fetched namespace listing:
collect the extracted checksums of the Rollout-owned records into a
deduplicated set (the Go map[string]bool used as a set). -/
def Resolve (rss : List ReplicaSet) : Finset String :=
  ((ListNamespaceRolloutReplicaSets rss).filterMap
    (fun rs => if (ExtractChecksum rs).2 then some (ExtractChecksum rs).1 else none)).toFinset

/-- k8s.FilterConfigMapsByChecksums over ConfigMap names: empty checksum
set short-circuits to the empty result; otherwise keep each name containing
at least one checksum of the set as a substring. -/
def FilterConfigMapsByChecksums (names : List String) (checksums : Finset String) : List String :=
  if checksums = ∅ then []
  else names.filter (fun n => decide (∃ c ∈ checksums, strContains n c = true))

example : Plan [⟨"a", 0, []⟩] (fun _ => false) 0 0 0 = ["a"] := by decide

example : Plan [⟨"a", 0, []⟩, ⟨"b", 5, []⟩] (fun _ => false) 1 0 10 = ["a"] := by decide

example : Plan [⟨"a", 0, []⟩] (fun n => n == "a") 0 0 0 = [] := by decide

example : Plan [⟨"a", 0, [("gc.k8s.io/protect", "true")]⟩] (fun _ => false) 0 0 0 = [] := by
  decide

example :
    Plan [⟨"a", 0, [("argocd.argoproj.io/sync-options", "Replace=true,PruneLast=true")]⟩]
      (fun _ => false) 0 0 0 = [] := by decide

example : Plan [⟨"a", 0, []⟩] (fun _ => false) 0 1 3600000000000 = [] := by decide

example :
    Resolve [⟨"rs1", [⟨"Rollout", "svc"⟩], [("checksum/config", "e6120fae")]⟩,
      ⟨"rs2", [⟨"Rollout", "svc"⟩], [("checksum/config", "e6120fae")]⟩,
      ⟨"rs3", [⟨"Deployment", "svc"⟩], [("checksum/config", "b870a608")]⟩,
      ⟨"rs4", [⟨"Rollout", "svc"⟩], []⟩] = {"e6120fae"} := by decide

theorem perm_planSort (cms : List ConfigMapCandidate) : List.Perm (planSort cms) cms :=
  List.perm_insertionSort newerEq cms

theorem sorted_planSort (cms : List ConfigMapCandidate) : List.Sorted newerEq (planSort cms) :=
  List.sorted_insertionSort newerEq cms

theorem mem_Plan_iff {cms : List ConfigMapCandidate} {inUse : String → Bool}
    {keepLast keepDays : ℤ} {now : ℤ} {n : String} :
    n ∈ Plan cms inUse keepLast keepDays now ↔
    ∃ cm ∈ planSort cms,
      deletable (notInKeepLast (planSort cms) keepLast) inUse keepDays now cm = true ∧
      cm.name = n := by
  simp [Plan, planFrom, and_assoc]

theorem deletable_iff {nikl : List String} {inUse : String → Bool} {keepDays : ℤ}
    {now : ℤ} {cm : ConfigMapCandidate} :
    deletable nikl inUse keepDays now cm = true ↔
    cm.name ∈ nikl ∧ inUse cm.name = false ∧
    lookupAnnot cm.annotations "gc.k8s.io/protect" ≠ "true" ∧
    strContains (lookupAnnot cm.annotations "argocd.argoproj.io/sync-options")
      "PruneLast=true" = false ∧
    keepDuration keepDays ≤ timeSub now cm.creationTimestamp := by
  simp [deletable, and_assoc]

theorem enumFrom_filter_map_eq_drop (k : ℤ) (l : List ConfigMapCandidate) :
    ∀ n : ℕ,
      ((l.enumFrom n).filter (fun p => decide ((p.1 : ℤ) ≥ k))).map (fun p => p.2.name) =
      (l.drop (k - n).toNat).map (fun cm => cm.name) := by
  induction l with
  | nil => intro n; simp
  | cons a t ih =>
    intro n
    have hstep : (a :: t).enumFrom n = (n, a) :: t.enumFrom (n + 1) := rfl
    by_cases h : (n : ℤ) ≥ k
    · have hd : (k - (n : ℤ)).toNat = 0 := by omega
      have hd1 : (k - ((n + 1 : ℕ) : ℤ)).toNat = 0 := by
        have hc : ((n + 1 : ℕ) : ℤ) = (n : ℤ) + 1 := by push_cast; ring
        omega
      rw [hstep, List.filter_cons, if_pos (by simpa using h), List.map_cons, ih (n + 1),
        hd1, hd]
      simp
    · have hc : ((n + 1 : ℕ) : ℤ) = (n : ℤ) + 1 := by push_cast; ring
      have hd : (k - (n : ℤ)).toNat = ((k - ((n + 1 : ℕ) : ℤ)).toNat) + 1 := by omega
      rw [hstep, List.filter_cons, if_neg (by simpa using h), ih (n + 1), hd,
        List.drop_succ_cons]

theorem notInKeepLast_eq_drop (sorted : List ConfigMapCandidate) (kl : ℤ) :
    notInKeepLast sorted kl = (sorted.drop kl.toNat).map (fun cm => cm.name) := by
  simpa [notInKeepLast] using enumFrom_filter_map_eq_drop kl sorted 0

theorem timeSub_nonneg {a b : ℤ} (h : b ≤ a) : 0 ≤ timeSub a b := by
  have h1 : (0 : ℤ) ≤ min i64Max (a - b) := le_min (by norm_num [i64Max]) (by omega)
  exact le_trans h1 (le_max_right _ _)

theorem timeSub_lt_of_lt {a b d : ℤ} (hd : 0 ≤ d) (h : a - b < d) : timeSub a b < d := by
  have h1 : min i64Max (a - b) < d := lt_of_le_of_lt (min_le_right _ _) h
  have h2 : i64Min < d := lt_of_lt_of_le (by norm_num [i64Min]) hd
  exact max_lt h2 h1

theorem wrap64_eq_self {x : ℤ} (h1 : i64Min ≤ x) (h2 : x ≤ i64Max) : wrap64 x = x := by
  have e1 : (2 : ℤ) ^ 63 = 9223372036854775808 := by norm_num
  have e2 : (2 : ℤ) ^ 64 = 18446744073709551616 := by norm_num
  unfold i64Min at h1
  unfold i64Max at h2
  rw [e1] at h1 h2
  unfold wrap64
  rw [e1, e2,
    Int.emod_eq_of_lt (show (0 : ℤ) ≤ x + 9223372036854775808 by omega)
      (show x + 9223372036854775808 < 18446744073709551616 by omega)]
  omega

theorem keepDuration_zero : keepDuration 0 = 0 := by decide

theorem keepDuration_eq {kd : ℤ} (h0 : 0 ≤ kd) (hb : kd ≤ 106751) :
    keepDuration kd = kd * 86400000000000 := by
  have hm : kd * 24 * 3600000000000 = kd * 86400000000000 := by ring
  have eMin : i64Min = -9223372036854775808 := by norm_num [i64Min]
  have eMax : i64Max = 9223372036854775807 := by norm_num [i64Max]
  unfold keepDuration
  rw [hm]
  exact wrap64_eq_self (by rw [eMin]; omega) (by rw [eMax]; omega)

/-- C1: a candidate whose name is in the in-use set never appears in the
delete list returned by Plan, for any keepLast and keepDays. -/
theorem plan_inUse_never_deleted (cms : List ConfigMapCandidate) (inUse : String → Bool)
    (keepLast keepDays : ℤ) (now : ℤ) (n : String) (h : inUse n = true) :
    n ∉ Plan cms inUse keepLast keepDays now := by
  intro hmem
  rcases mem_Plan_iff.mp hmem with ⟨cm, _, hdel, hname⟩
  rcases deletable_iff.mp hdel with ⟨_, hu, _⟩
  rw [hname] at hu
  rw [h] at hu
  exact Bool.noConfusion hu

/-- Witness for C1 at a concrete input. -/
theorem plan_inUse_never_deleted_witness :
    "a" ∉ Plan [⟨"a", 0, []⟩] (fun n => n == "a") 0 0 0 :=
  plan_inUse_never_deleted [⟨"a", 0, []⟩] (fun n => n == "a") 0 0 0 "a" rfl

/-- C2 as stated fails on the code: with two input candidates sharing one
name, the returned list repeats that name. -/
theorem plan_output_nodup_cex :
    Plan [⟨"a", 0, []⟩, ⟨"a", 0, []⟩] (fun _ => false) 0 0 0 = ["a", "a"] ∧
    ¬ (Plan [⟨"a", 0, []⟩, ⟨"a", 0, []⟩] (fun _ => false) 0 0 0).Nodup := by decide

/-- C2 amended: every name returned by Plan is the name of some input
candidate; and when the input candidate names are pairwise distinct, no
name appears in the returned list more than once. -/
theorem plan_output_subset_nodup (cms : List ConfigMapCandidate) (inUse : String → Bool)
    (keepLast keepDays : ℤ) (now : ℤ) :
    (∀ n ∈ Plan cms inUse keepLast keepDays now, ∃ cm ∈ cms, cm.name = n) ∧
    ((cms.map ConfigMapCandidate.name).Nodup →
      (Plan cms inUse keepLast keepDays now).Nodup) := by
  constructor
  · intro n hn
    rcases mem_Plan_iff.mp hn with ⟨cm, hmem, _, hname⟩
    exact ⟨cm, (perm_planSort cms).mem_iff.mp hmem, hname⟩
  · intro hnodup
    have hsn : ((planSort cms).map ConfigMapCandidate.name).Nodup :=
      ((perm_planSort cms).map _).nodup_iff.mpr hnodup
    have hsub : List.Sublist
        ((planSort cms).filter
          (deletable (notInKeepLast (planSort cms) keepLast) inUse keepDays now))
        (planSort cms) := List.filter_sublist _
    exact hsn.sublist (hsub.map _)

/-- Witness for the amended C2 at a concrete input. -/
theorem plan_output_subset_nodup_witness :
    (∀ n ∈ Plan [⟨"a", 0, []⟩, ⟨"b", 5, []⟩] (fun _ => false) 0 0 9,
      ∃ cm ∈ [ConfigMapCandidate.mk "a" 0 [], ⟨"b", 5, []⟩], cm.name = n) ∧
    (Plan [⟨"a", 0, []⟩, ⟨"b", 5, []⟩] (fun _ => false) 0 0 9).Nodup :=
  ⟨(plan_output_subset_nodup [⟨"a", 0, []⟩, ⟨"b", 5, []⟩] (fun _ => false) 0 0 9).1,
   (plan_output_subset_nodup [⟨"a", 0, []⟩, ⟨"b", 5, []⟩] (fun _ => false) 0 0 9).2
     (by decide)⟩

/-- C3 as stated fails on the code: the keepLast exemption set is keyed by
name, so a candidate ranked inside the first keepLast positions whose name
is shared with a lower-ranked candidate still shows up in the delete list.
Here the newest candidate holds rank 0 with keepLast = 1, yet its name is
returned. -/
theorem plan_keepLast_cex :
    (planSort [⟨"a", 1, []⟩, ⟨"a", 0, []⟩]).head? = some ⟨"a", 1, []⟩ ∧
    "a" ∈ Plan [⟨"a", 1, []⟩, ⟨"a", 0, []⟩] (fun _ => false) 1 0 1 := by decide

/-- C3 amended: when the candidate names are pairwise distinct, a candidate
at 0-based rank below keepLast in the creation-time-descending order never
appears in the delete list; and unconditionally, when keepLast is at least
the number of candidates the delete list is empty. -/
theorem plan_keepLast_exempt (cms : List ConfigMapCandidate) (inUse : String → Bool)
    (keepLast keepDays : ℤ) (now : ℤ) :
    ((cms.map ConfigMapCandidate.name).Nodup →
      ∀ i : ℕ, ∀ hi : i < (planSort cms).length, (i : ℤ) < keepLast →
        ((planSort cms).get ⟨i, hi⟩).name ∉ Plan cms inUse keepLast keepDays now) ∧
    ((cms.length : ℤ) ≤ keepLast → Plan cms inUse keepLast keepDays now = []) := by
  constructor
  · intro hnodup i hi hikl hmem
    rcases mem_Plan_iff.mp hmem with ⟨cm, hcm, hdel, hname⟩
    rcases deletable_iff.mp hdel with ⟨hnk, -⟩
    rw [hname, notInKeepLast_eq_drop] at hnk
    have hget : (planSort cms).get ⟨i, hi⟩ = (planSort cms)[i] := rfl
    rw [hget] at hnk
    have hsn : ((planSort cms).map ConfigMapCandidate.name).Nodup :=
      ((perm_planSort cms).map _).nodup_iff.mpr hnodup
    have hik : i < keepLast.toNat := by omega
    have hlen_take : i < ((planSort cms).take keepLast.toNat).length := by
      simp only [List.length_take]
      omega
    have hgt : ((planSort cms).take keepLast.toNat)[i] = (planSort cms)[i] :=
      List.getElem_take (planSort cms)
    have hmem_take : (planSort cms)[i] ∈ (planSort cms).take keepLast.toNat := by
      rw [← hgt]
      exact List.getElem_mem hlen_take
    have hmem_take2 : (planSort cms)[i].name ∈
        ((planSort cms).take keepLast.toNat).map ConfigMapCandidate.name :=
      List.mem_map_of_mem _ hmem_take
    have hsplit : (planSort cms).take keepLast.toNat ++ (planSort cms).drop keepLast.toNat =
        planSort cms := List.take_append_drop _ _
    have happ : (((planSort cms).take keepLast.toNat).map ConfigMapCandidate.name ++
        ((planSort cms).drop keepLast.toNat).map ConfigMapCandidate.name).Nodup := by
      rw [← List.map_append, hsplit]
      exact hsn
    exact (List.nodup_append.mp happ).2.2 hmem_take2 hnk
  · intro hkl
    have hlen : (planSort cms).length = cms.length := (perm_planSort cms).length_eq
    have hnil : (planSort cms).drop keepLast.toNat = [] := List.drop_eq_nil_of_le (by omega)
    have hnk : notInKeepLast (planSort cms) keepLast = [] := by
      rw [notInKeepLast_eq_drop, hnil]
      rfl
    have hall : ∀ cm ∈ planSort cms,
        ¬ (deletable (notInKeepLast (planSort cms) keepLast) inUse keepDays now cm = true) := by
      intro cm _ hdel
      rcases deletable_iff.mp hdel with ⟨hmem2, -⟩
      rw [hnk] at hmem2
      simp at hmem2
    show planFrom (planSort cms) inUse keepLast keepDays now = []
    unfold planFrom
    rw [List.filter_eq_nil_iff.mpr hall]
    rfl

/-- Witness for the amended C3 at concrete inputs: with keepLast = 1 the
newest candidate is exempt, and with keepLast = 2 nothing is deleted. -/
theorem plan_keepLast_exempt_witness :
    ((planSort [⟨"a", 5, []⟩, ⟨"b", 0, []⟩]).get ⟨0, by decide⟩).name ∉
      Plan [⟨"a", 5, []⟩, ⟨"b", 0, []⟩] (fun _ => false) 1 0 9 ∧
    Plan [⟨"a", 5, []⟩, ⟨"b", 0, []⟩] (fun _ => false) 2 0 9 = [] :=
  ⟨(plan_keepLast_exempt [⟨"a", 5, []⟩, ⟨"b", 0, []⟩] (fun _ => false) 1 0 9).1
      (by decide) 0 (by decide) (by decide),
   (plan_keepLast_exempt [⟨"a", 5, []⟩, ⟨"b", 0, []⟩] (fun _ => false) 2 0 9).2 (by decide)⟩

/-- C4 as stated fails on the code: with keepDays = 0 the age filter still
excludes a candidate created after now, because its negative age is below
the zero keep duration. The single candidate here has creation time 1 and
now is 0, it is not keepLast-exempt, not in use and unannotated, yet the
delete list is empty. -/
theorem plan_keepDays_zero_cex :
    (0 : ℤ) < 1 ∧ Plan [⟨"a", 1, []⟩] (fun _ => false) 0 0 0 = [] := by decide

/-- C4 amended: with keepDays = 0, every candidate whose creation time is
at most now, whose name is in the notInKeepLast set, that is not in use
and carries neither protection annotation appears in the delete list; the
age filter at keepDays = 0 excludes exactly the candidates created after
now. -/
theorem plan_keepDays_zero_deletes (cms : List ConfigMapCandidate) (inUse : String → Bool)
    (keepLast : ℤ) (now : ℤ) (cm : ConfigMapCandidate)
    (hmem : cm ∈ cms)
    (hnk : cm.name ∈ notInKeepLast (planSort cms) keepLast)
    (hu : inUse cm.name = false)
    (hp : lookupAnnot cm.annotations "gc.k8s.io/protect" ≠ "true")
    (hpl : strContains (lookupAnnot cm.annotations "argocd.argoproj.io/sync-options")
      "PruneLast=true" = false)
    (hnow : cm.creationTimestamp ≤ now) :
    cm.name ∈ Plan cms inUse keepLast 0 now := by
  apply mem_Plan_iff.mpr
  refine ⟨cm, (perm_planSort cms).mem_iff.mpr hmem, ?_, rfl⟩
  apply deletable_iff.mpr
  refine ⟨hnk, hu, hp, hpl, ?_⟩
  rw [keepDuration_zero]
  exact timeSub_nonneg hnow

/-- Witness for the amended C4 at a concrete input. -/
theorem plan_keepDays_zero_deletes_witness :
    "a" ∈ Plan [⟨"a", 3, []⟩] (fun _ => false) 0 0 3 :=
  plan_keepDays_zero_deletes [⟨"a", 3, []⟩] (fun _ => false) 0 3 ⟨"a", 3, []⟩
    (by decide) (by decide) rfl (by decide) (by decide) (by decide)

/-- C5 as stated fails on the code: the sort key is the creation time only,
so with two candidates sharing a timestamp and keepLast = 1, permuting the
input swaps which candidate is exempt, and the delete lists differ. -/
theorem plan_order_cex :
    List.Perm [ConfigMapCandidate.mk "a" 0 [], ⟨"b", 0, []⟩] [⟨"b", 0, []⟩, ⟨"a", 0, []⟩] ∧
    Plan [⟨"a", 0, []⟩, ⟨"b", 0, []⟩] (fun _ => false) 1 0 0 = ["b"] ∧
    Plan [⟨"b", 0, []⟩, ⟨"a", 0, []⟩] (fun _ => false) 1 0 0 = ["a"] := by decide

theorem sorted_perm_eq_of_nodup_times :
    ∀ l₁ l₂ : List ConfigMapCandidate,
      List.Sorted newerEq l₁ → List.Sorted newerEq l₂ → List.Perm l₁ l₂ →
      (l₁.map ConfigMapCandidate.creationTimestamp).Nodup → l₁ = l₂ := by
  intro l₁
  induction l₁ with
  | nil =>
    intro l₂ _ _ hp _
    exact hp.symm.eq_nil.symm
  | cons a t ih =>
    intro l₂ hs₁ hs₂ hp hn
    cases l₂ with
    | nil => exact absurd hp.eq_nil (by simp)
    | cons b t₂ =>
      by_cases hab : a = b
      · subst hab
        have ht : List.Perm t t₂ := hp.cons_inv
        simp only [List.map_cons] at hn
        have := ih t₂ hs₁.of_cons hs₂.of_cons ht hn.of_cons
        exact congrArg (List.cons a) this
      · exfalso
        have ha2 : a ∈ b :: t₂ := hp.subset (List.mem_cons_self a t)
        have hat : a ∈ t₂ := by
          rcases List.mem_cons.mp ha2 with h | h
          · exact absurd h hab
          · exact h
        have hb1 : b ∈ a :: t := hp.symm.subset (List.mem_cons_self b t₂)
        have hbt : b ∈ t := by
          rcases List.mem_cons.mp hb1 with h | h
          · exact absurd h.symm hab
          · exact h
        have h1 : a.creationTimestamp ≤ b.creationTimestamp :=
          List.rel_of_sorted_cons hs₂ a hat
        have h2 : b.creationTimestamp ≤ a.creationTimestamp :=
          List.rel_of_sorted_cons hs₁ b hbt
        have heq : a.creationTimestamp = b.creationTimestamp := le_antisymm h1 h2
        have hmem2 : a.creationTimestamp ∈ t.map ConfigMapCandidate.creationTimestamp := by
          rw [heq]
          exact List.mem_map_of_mem _ hbt
        simp only [List.map_cons] at hn
        exact (List.nodup_cons.mp hn).1 hmem2

theorem planSort_perm_eq (cms₁ cms₂ : List ConfigMapCandidate)
    (hperm : List.Perm cms₁ cms₂)
    (hts : (cms₁.map ConfigMapCandidate.creationTimestamp).Nodup) :
    planSort cms₁ = planSort cms₂ :=
  sorted_perm_eq_of_nodup_times _ _ (sorted_planSort cms₁) (sorted_planSort cms₂)
    (((perm_planSort cms₁).trans hperm).trans (perm_planSort cms₂).symm)
    (((perm_planSort cms₁).map _).nodup_iff.mpr hts)

/-- C5 amended: Plan is a pure function of its arguments, and when the
creation timestamps are pairwise distinct its output is invariant under
permutation of the candidate list; with tied timestamps the output can
depend on the presentation order, as the counterexample shows. -/
theorem plan_perm_invariant (cms₁ cms₂ : List ConfigMapCandidate) (inUse : String → Bool)
    (keepLast keepDays : ℤ) (now : ℤ)
    (hperm : List.Perm cms₁ cms₂)
    (hts : (cms₁.map ConfigMapCandidate.creationTimestamp).Nodup) :
    Plan cms₁ inUse keepLast keepDays now = Plan cms₂ inUse keepLast keepDays now := by
  unfold Plan
  rw [planSort_perm_eq cms₁ cms₂ hperm hts]

/-- Witness for the amended C5 at a concrete input. -/
theorem plan_perm_invariant_witness :
    Plan [⟨"a", 0, []⟩, ⟨"b", 1, []⟩] (fun _ => false) 1 0 5 =
    Plan [⟨"b", 1, []⟩, ⟨"a", 0, []⟩] (fun _ => false) 1 0 5 :=
  plan_perm_invariant [⟨"a", 0, []⟩, ⟨"b", 1, []⟩] [⟨"b", 1, []⟩, ⟨"a", 0, []⟩]
    (fun _ => false) 1 0 5 (by decide) (by decide)

/-- C6 as stated fails on the code: deletion is recorded by name, so a
candidate strictly younger than keepDays*24h still shows up in the delete
list when an old enough candidate shares its name. The younger copy here is
1ns old with keepDays = 1, yet the shared name is returned. -/
theorem plan_age_cex :
    (172800000000000 - 172799999999999 : ℤ) < 1 * 86400000000000 ∧
    "a" ∈ Plan [⟨"a", 172799999999999, []⟩, ⟨"a", 0, []⟩] (fun _ => false) 0 1
      172800000000000 := by decide

/-- C6 amended: when the candidate names are pairwise distinct and
keepDays lies in 0..106751 (so keepDays*24h fits the int64 nanosecond
Duration without wraparound), a candidate whose age now minus creation time
is strictly below keepDays*24h never appears in the delete list. -/
theorem plan_age_filter (cms : List ConfigMapCandidate) (inUse : String → Bool)
    (keepLast keepDays : ℤ) (now : ℤ) (cm : ConfigMapCandidate)
    (hnodup : (cms.map ConfigMapCandidate.name).Nodup)
    (h0 : 0 ≤ keepDays) (hb : keepDays ≤ 106751)
    (hmem : cm ∈ cms)
    (hage : now - cm.creationTimestamp < keepDays * 86400000000000) :
    cm.name ∉ Plan cms inUse keepLast keepDays now := by
  intro hin
  rcases mem_Plan_iff.mp hin with ⟨cm2, hcm2, hdel, hname⟩
  have hcm2cms : cm2 ∈ cms := (perm_planSort cms).mem_iff.mp hcm2
  have hcc : cm2 = cm := List.inj_on_of_nodup_map hnodup hcm2cms hmem hname
  subst hcc
  rcases deletable_iff.mp hdel with ⟨-, -, -, -, hge⟩
  rw [keepDuration_eq h0 hb] at hge
  have hlt : timeSub now cm2.creationTimestamp < keepDays * 86400000000000 :=
    timeSub_lt_of_lt (mul_nonneg h0 (by norm_num)) hage
  omega

/-- Witness for the amended C6 at a concrete input. -/
theorem plan_age_filter_witness :
    "a" ∉ Plan [⟨"a", 9, []⟩] (fun _ => false) 0 1 10 :=
  plan_age_filter [⟨"a", 9, []⟩] (fun _ => false) 0 1 10 ⟨"a", 9, []⟩
    (by decide) (by decide) (by decide) (by decide) (by decide)

/-- C7 as stated fails on the code: the protection is checked per
candidate but deletion is recorded by name, so a protected candidate whose
name is shared with an unprotected candidate still shows up in the delete
list. -/
theorem plan_protected_cex :
    lookupAnnot [("gc.k8s.io/protect", "true")] "gc.k8s.io/protect" = "true" ∧
    "a" ∈ Plan [⟨"a", 1, [("gc.k8s.io/protect", "true")]⟩, ⟨"a", 0, []⟩]
      (fun _ => false) 0 0 1 := by decide

/-- C7 amended: when the candidate names are pairwise distinct, a candidate
whose gc.k8s.io/protect value is exactly "true", or whose
argocd.argoproj.io/sync-options value contains the substring
"PruneLast=true", never appears in the delete list. -/
theorem plan_protected_never_deleted (cms : List ConfigMapCandidate) (inUse : String → Bool)
    (keepLast keepDays : ℤ) (now : ℤ) (cm : ConfigMapCandidate)
    (hnodup : (cms.map ConfigMapCandidate.name).Nodup)
    (hmem : cm ∈ cms)
    (hprot : lookupAnnot cm.annotations "gc.k8s.io/protect" = "true" ∨
      strContains (lookupAnnot cm.annotations "argocd.argoproj.io/sync-options")
        "PruneLast=true" = true) :
    cm.name ∉ Plan cms inUse keepLast keepDays now := by
  intro hin
  rcases mem_Plan_iff.mp hin with ⟨cm2, hcm2, hdel, hname⟩
  have hcc : cm2 = cm :=
    List.inj_on_of_nodup_map hnodup ((perm_planSort cms).mem_iff.mp hcm2) hmem hname
  subst hcc
  rcases deletable_iff.mp hdel with ⟨-, -, hp, hpl, -⟩
  rcases hprot with h | h
  · exact hp h
  · rw [h] at hpl
    exact Bool.noConfusion hpl

/-- Witness for the amended C7 at a concrete input. -/
theorem plan_protected_never_deleted_witness :
    "a" ∉ Plan [⟨"a", 0, [("gc.k8s.io/protect", "true")]⟩] (fun _ => false) 0 0 5 :=
  plan_protected_never_deleted [⟨"a", 0, [("gc.k8s.io/protect", "true")]⟩] (fun _ => false)
    0 0 5 ⟨"a", 0, [("gc.k8s.io/protect", "true")]⟩ (by decide) (by decide) (Or.inl rfl)

theorem extractChecksum_spec (rs : ReplicaSet) (s : String) :
    ((ExtractChecksum rs).2 = true ∧ (ExtractChecksum rs).1 = s) ↔
    (s ≠ "" ∧ lookupAnnot2 rs.templateAnnots AnnotationChecksumConfig = some s) := by
  unfold ExtractChecksum
  rcases h : lookupAnnot2 rs.templateAnnots AnnotationChecksumConfig with _ | c
  · simp
  · simp only [bne_iff_ne, Option.some.injEq]
    constructor
    · rintro ⟨h1, h2⟩
      subst h2
      exact ⟨h1, rfl⟩
    · rintro ⟨h1, h2⟩
      subst h2
      exact ⟨h1, rfl⟩

theorem mem_Resolve_iff {rss : List ReplicaSet} {s : String} :
    s ∈ Resolve rss ↔
    s ≠ "" ∧ ∃ rs ∈ rss,
      (rs.ownerReferences.any (fun ref => ref.kind == "Rollout")) = true ∧
      lookupAnnot2 rs.templateAnnots AnnotationChecksumConfig = some s := by
  unfold Resolve ListNamespaceRolloutReplicaSets
  rw [List.mem_toFinset, List.mem_filterMap]
  constructor
  · rintro ⟨rs, hmem, hif⟩
    rcases List.mem_filter.mp hmem with ⟨hrs, hown⟩
    have hpair : (ExtractChecksum rs).2 = true ∧ (ExtractChecksum rs).1 = s := by
      by_cases hec : (ExtractChecksum rs).2 = true
      · rw [if_pos hec] at hif
        exact ⟨hec, Option.some.inj hif⟩
      · rw [if_neg hec] at hif
        exact Option.noConfusion hif
    rcases (extractChecksum_spec rs s).mp hpair with ⟨hne, hla⟩
    exact ⟨hne, rs, hrs, hown, hla⟩
  · rintro ⟨hne, rs, hrs, hown, hla⟩
    have hpair := (extractChecksum_spec rs s).mpr ⟨hne, hla⟩
    refine ⟨rs, List.mem_filter.mpr ⟨hrs, hown⟩, ?_⟩
    rw [if_pos hpair.1, hpair.2]

/-- C8: the resolver output is exactly the deduplicated set of the
non-empty checksum/config values of the Rollout-owned records: a string is
in the output precisely when it is non-empty and is the checksum/config
value of some record with a Rollout owner reference, and the empty input
yields the empty set. Absence of the key or an empty value contributes
nothing; the pure model has no error channel, matching the no-error
contract. -/
theorem resolve_exact (rss : List ReplicaSet) :
    (∀ s : String, s ∈ Resolve rss ↔
      (s ≠ "" ∧ ∃ rs ∈ rss,
        (rs.ownerReferences.any (fun ref => ref.kind == "Rollout")) = true ∧
        lookupAnnot2 rs.templateAnnots AnnotationChecksumConfig = some s)) ∧
    (rss = [] → Resolve rss = ∅) := by
  refine ⟨fun s => mem_Resolve_iff, ?_⟩
  rintro rfl
  rfl

/-- Witness for C8: the empty listing resolves to the empty set. -/
theorem resolve_exact_witness : Resolve [] = ∅ := (resolve_exact []).2 rfl

/-- C9: a record none of whose owner references has kind exactly "Rollout"
is not matched by isOwnedByRollout for any rollout name, is dropped from
the Rollout-owned listing, and contributes nothing to the resolver output,
regardless of its annotations. -/
theorem non_rollout_owner_excluded (rs : ReplicaSet) (rss₁ rss₂ : List ReplicaSet)
    (rolloutName : String)
    (h : ∀ ref ∈ rs.ownerReferences, ref.kind ≠ "Rollout") :
    isOwnedByRollout rs rolloutName = false ∧
    ListRolloutReplicaSets (rss₁ ++ rs :: rss₂) rolloutName =
      ListRolloutReplicaSets (rss₁ ++ rss₂) rolloutName ∧
    Resolve (rss₁ ++ rs :: rss₂) = Resolve (rss₁ ++ rss₂) := by
  have hany : (rs.ownerReferences.any (fun ref => ref.kind == "Rollout")) = false := by
    rw [List.any_eq_false]
    intro ref href
    simpa using h ref href
  have hior : isOwnedByRollout rs rolloutName = false := by
    unfold isOwnedByRollout
    rw [List.any_eq_false]
    intro ref href
    simp only [Bool.and_eq_true, beq_iff_eq, not_and]
    intro hk
    exact absurd hk (h ref href)
  have hfil : ∀ p : ReplicaSet → Bool, p rs = false →
      (rss₁ ++ rs :: rss₂).filter p = (rss₁ ++ rss₂).filter p := by
    intro p hp
    simp [List.filter_append, List.filter_cons, hp]
  refine ⟨hior, ?_, ?_⟩
  · unfold ListRolloutReplicaSets
    exact hfil _ hior
  · unfold Resolve ListNamespaceRolloutReplicaSets
    rw [hfil _ hany]

/-- Witness for C9 at a concrete input: a Deployment-owned record with a
checksum annotation is ignored entirely. -/
theorem non_rollout_owner_excluded_witness :
    isOwnedByRollout ⟨"standalone", [⟨"Deployment", "d"⟩], [("checksum/config", "zz")]⟩
      "svc" = false ∧
    ListRolloutReplicaSets [⟨"standalone", [⟨"Deployment", "d"⟩], [("checksum/config", "zz")]⟩]
      "svc" = ListRolloutReplicaSets [] "svc" ∧
    Resolve [⟨"standalone", [⟨"Deployment", "d"⟩], [("checksum/config", "zz")]⟩] =
      Resolve [] :=
  non_rollout_owner_excluded ⟨"standalone", [⟨"Deployment", "d"⟩], [("checksum/config", "zz")]⟩
    [] [] "svc" (by decide)

/-- C10: every token the resolver returns is a non-empty string, and this
matters downstream: a checksum set containing the empty string would make
FilterConfigMapsByChecksums keep every ConfigMap name, since the empty
string is a substring of every name. -/
theorem resolve_nonempty_tokens (rss : List ReplicaSet) :
    (∀ s ∈ Resolve rss, s ≠ "") ∧
    (∀ (names : List String) (checksums : Finset String), "" ∈ checksums →
      FilterConfigMapsByChecksums names checksums = names) := by
  constructor
  · intro s hs
    exact (mem_Resolve_iff.mp hs).1
  · intro names checksums hmem
    unfold FilterConfigMapsByChecksums
    rw [if_neg (Finset.ne_empty_of_mem hmem)]
    apply List.filter_eq_self.mpr
    intro n _
    simp only [decide_eq_true_eq]
    exact ⟨"", hmem, decide_eq_true List.nil_infix⟩

/-- Witness for C10: a set holding the empty token keeps every name. -/
theorem resolve_nonempty_tokens_witness :
    FilterConfigMapsByChecksums ["app-e6120fae", "other"] {""} = ["app-e6120fae", "other"] :=
  (resolve_nonempty_tokens []).2 ["app-e6120fae", "other"] {""} (by decide)

end ConfigMapCollector
